import Mathlib

/-!
Verification development for the c-emit library (`src/lib.rs`), a builder
that accumulates C statements and renders a complete program text.
Rust strings are modelled as lists of characters; the builder struct
`Code` is modelled field by field, and each public method becomes a
state-passing function.
-/

set_option autoImplicit false

namespace CEmit

/-- Characters of a Lean string literal; used to transcribe the Rust
string literals appearing in the source. -/
def chars (s : String) : List Char := s.data

/-- Does the input (second argument) start with the pattern (first
argument)?  Models the prefix test Rust's `str::replace` performs at
each scan position. -/
def startsWith : List Char → List Char → Bool
  | [], _ => true
  | _ :: _, [] => false
  | p :: ps, c :: cs => p == c && startsWith ps cs

/-- Fuel-indexed scanner of Rust `str::replace`: leftmost match,
non-overlapping, scanning left to right.  The pattern is `p :: ps`
(Rust is only ever called with non-empty patterns here). -/
def replaceAux (p : Char) (ps rep : List Char) : Nat → List Char → List Char
  | _, [] => []
  | 0, s => s
  | fuel + 1, c :: rest =>
    if startsWith (p :: ps) (c :: rest) then
      rep ++ replaceAux p ps rep fuel (rest.drop ps.length)
    else
      c :: replaceAux p ps rep fuel rest

/-- Rust `str::replace` with pattern `p :: ps` and replacement `rep`. -/
def replaceList (p : Char) (ps rep s : List Char) : List Char :=
  replaceAux p ps rep s.length s

/-- Decimal rendering of a natural number, as Rust `usize::to_string`. -/
def natToString (n : Nat) : List Char := Nat.toDigits 10 n

/-- Decimal rendering of a signed integer, as Rust `i32::to_string` /
`i64::to_string`. -/
def intToString (i : Int) : List Char :=
  if i < 0 then '-' :: Nat.toDigits 10 i.natAbs else Nat.toDigits 10 i.natAbs

/-- Rendering of a boolean, as Rust `bool::to_string`. -/
def boolToString (b : Bool) : List Char :=
  if b then chars "true" else chars "false"

/-- The escaping applied by `call_func_with_args` to a `CArg::String`
payload: the four `str::replace` calls of the source, in source order. -/
def escapeString (s : List Char) : List Char :=
  replaceList '"' [] ['\\', '"']
    (replaceList '\t' [] ['\\', 't']
      (replaceList '\n' [] ['\\', 'n']
        (replaceList '\r' ['\n'] ['\\', 'r', '\\', 'n'] s)))

/-- The C argument (`enum CArg`).  The `Float`/`Double` payloads carry
the decimal text Rust's `Display` produces for the number, since
floating-point formatting is outside this embedding; no claim depends
on a particular float text. -/
inductive CArg where
  | String (s : List Char)
  | Ident (id : List Char)
  | Int32 (n : Int)
  | Int64 (n : Int)
  | Float (r : List Char)
  | Double (r : List Char)
  | Bool (b : Bool)
  | Char (c : Char)
deriving DecidableEq

/-- The variable types (`enum VarTypes`). -/
inductive VarTypes where
  | String
  | Int32
  | Int64
  | Float
  | Double
  | Bool
  | Char
deriving DecidableEq

/-- The variable initialization (`enum VarInit`).  `Float`/`Double`
carry rendered text as in `CArg`. -/
inductive VarInit where
  | String (s : List Char)
  | Ident (ty : VarTypes) (id : List Char)
  | Int32 (n : Int)
  | Int64 (n : Int)
  | Float (r : List Char)
  | Double (r : List Char)
  | Bool (b : Bool)
  | Char (c : Char)
  | SizeString (n : Nat)
deriving DecidableEq

/-- The builder state (`struct Code`): the statement body text, the
ordered inclusion list, and the exit code.  The Rust field `exit` is
called `exitCode` here because the method `Code::exit` keeps its name. -/
structure Code where
  code : List Char
  requires : List (List Char)
  exitCode : Int
deriving DecidableEq

/-- Rust `Code::new`. -/
def Code.new : Code := ⟨[], [], 0⟩

/-- Rust `Code::exit`. -/
def Code.exit (c : Code) (v : Int) : Code := { c with exitCode := v }

/-- Rust `Code::include` (named `addInclude` because `include` is reserved
in Lean): push the file name unless it is already present. -/
def Code.addInclude (c : Code) (file : List Char) : Code :=
  if file ∈ c.requires then c else { c with requires := c.requires ++ [file] }

/-- Rust `Code::call_func`. -/
def Code.callFunc (c : Code) (func : List Char) : Code :=
  { c with code := c.code ++ func ++ chars "();\n" }

/-- The text pushed for one argument inside the loop of
`call_func_with_args` (each `match` arm's pushes, in order). -/
def renderCArg : CArg → List Char
  | .String s => '"' :: escapeString s ++ ['"']
  | .Ident id => id
  | .Int32 n => intToString n
  | .Int64 n => intToString n
  | .Float r => r
  | .Double r => r
  | .Bool b => boolToString b
  | .Char c => [c]

/-- The trailing-comma strip of `call_func_with_args`: if the whole
buffer ends with a comma, drop that last character, as the source does
with `ends_with` and `strip_suffix`. -/
def stripTrailingComma (s : List Char) : List Char :=
  if s.getLast? == some ',' then s.dropLast else s

/-- Rust `Code::call_func_with_args`: push the name and `(`, then every
argument followed by a comma, then strip a trailing comma from the
whole buffer if present, then push `);` and a newline. -/
def Code.callFuncWithArgs (c : Code) (func : List Char) (args : List CArg) : Code :=
  { c with code := stripTrailingComma (args.foldl (fun acc a => acc ++ renderCArg a ++ [',']) (c.code ++ func ++ ['('])) ++ chars ");\n" }

/-- Rust `Code::new_var`: one branch per `VarInit` constructor, each a
transcription of the corresponding `match` arm's pushes.  The
`Ident VarTypes.Bool` and `Bool` arms also push `"stdbool.h"` onto
`requires` unconditionally, as the source does. -/
def Code.newVar (c : Code) (name : List Char) (v : VarInit) : Code :=
  match v with
  | .String s =>
      { c with code := c.code ++ chars "char " ++ name ++
          chars "[]=\"" ++ s ++ chars "\";" ++ ['\n'] }
  | .Ident ty id =>
      { c with
        requires :=
          match ty with
          | .Bool => c.requires ++ [chars "stdbool.h"]
          | _ => c.requires,
        code := c.code ++
          (match ty with
           | .String => chars "char "
           | .Int32 => chars "int "
           | .Int64 => chars "int "
           | .Float => chars "float "
           | .Double => chars "double "
           | .Bool => chars "bool "
           | .Char => chars "char ") ++ name ++
          (match ty with
           | .String => chars "[]"
           | _ => []) ++
          ['='] ++ id ++ [';'] ++ ['\n'] }
  | .Bool b =>
      { c with
        requires := c.requires ++ [chars "stdbool.h"],
        code := c.code ++ chars "bool " ++ name ++ ['='] ++
          boolToString b ++ chars ";\n" }
  | .Char ch =>
      { c with code := c.code ++ chars "char " ++ name ++
          ['=', '\x27'] ++ [ch] ++ ['\x27'] ++ chars ";\n" }
  | .Double r =>
      { c with code := c.code ++ chars "double " ++ name ++
          ['='] ++ r ++ chars ";\n" }
  | .Float r =>
      { c with code := c.code ++ chars "float " ++ name ++
          ['='] ++ r ++ chars ";\n" }
  | .Int32 i =>
      { c with code := c.code ++ chars "int " ++ name ++
          ['='] ++ intToString i ++ chars ";\n" }
  | .Int64 i =>
      { c with code := c.code ++ chars "int " ++ name ++
          ['='] ++ intToString i ++ chars ";\n" }
  | .SizeString n =>
      { c with code := c.code ++ chars "char " ++ name ++
          ['['] ++ natToString n ++ chars "];\n" }

/-- Rust `impl Display for Code`: inclusion lines, the fixed `int main()`
opening, the body, the return statement, the closing brace, and the
final newline `writeln!` appends. -/
def Code.render (c : Code) : List Char :=
  let reqStr :=
    c.requires.foldl (fun acc r => acc ++ chars "#include<" ++ r ++ ['>', '\n']) []
  reqStr ++ chars "int main() \x7b\n" ++ c.code ++
    chars "return " ++ intToString c.exitCode ++ chars ";\n\x7d\n"

/-- Character-by-character substitution: the effect of `str::replace`
with a one-character pattern. -/
def charSubst (a : Char) (rep : List Char) : List Char → List Char
  | [] => []
  | c :: t => (if c = a then rep else [c]) ++ charSubst a rep t

/-- The first `str::replace` of the escaping chain (carriage-return +
newline pairs), expressed as a single left-to-right pass. -/
def crlfPass : List Char → List Char
  | '\r' :: '\n' :: t => '\\' :: 'r' :: '\\' :: 'n' :: crlfPass t
  | c :: t => c :: crlfPass t
  | [] => []

/-- Single-pass description of the complete escaping rule, following
the spec's wording: carriage-return+newline pairs first, then lone
newlines, tabs and double quotes, every other character untouched. -/
def escapeSpec : List Char → List Char
  | '\r' :: '\n' :: t => '\\' :: 'r' :: '\\' :: 'n' :: escapeSpec t
  | '\n' :: t => '\\' :: 'n' :: escapeSpec t
  | '\t' :: t => '\\' :: 't' :: escapeSpec t
  | '"' :: t => '\\' :: '"' :: escapeSpec t
  | c :: t => c :: escapeSpec t
  | [] => []

/-- Modelled from the spec: the repository has no un-escaping code;
the spec's round-trip property speaks of reversing the escaped text
"by the inverse substitutions".  The four inverse substitutions are
applied in the same relative order as the forward rule (the
carriage-return+newline sequence first, then newline, tab, quote). -/
def unescapeString (s : List Char) : List Char :=
  replaceList '\\' ['"'] ['"']
    (replaceList '\\' ['t'] ['\t']
      (replaceList '\\' ['n'] ['\n']
        (replaceList '\\' ['r', '\\', 'n'] ['\r', '\n'] s)))

/-- Intermediate form after undoing the carriage-return+newline
substitution: those pairs are back in the clear, newline/tab/quote
still escaped. -/
def mid1 : List Char → List Char
  | '\r' :: '\n' :: t => '\r' :: '\n' :: mid1 t
  | '\n' :: t => '\\' :: 'n' :: mid1 t
  | '\t' :: t => '\\' :: 't' :: mid1 t
  | '"' :: t => '\\' :: '"' :: mid1 t
  | c :: t => c :: mid1 t
  | [] => []

/-- Intermediate form with only tabs and quotes still escaped. -/
def mid2 : List Char → List Char
  | '\t' :: t => '\\' :: 't' :: mid2 t
  | '"' :: t => '\\' :: '"' :: mid2 t
  | c :: t => c :: mid2 t
  | [] => []

/-- Intermediate form with only quotes still escaped. -/
def mid3 : List Char → List Char
  | '"' :: t => '\\' :: '"' :: mid3 t
  | c :: t => c :: mid3 t
  | [] => []

/-- The text pushed by the argument loop of `call_func_with_args`:
each rendered argument followed by a comma. -/
def argsJoin : List CArg → List Char
  | [] => []
  | a :: rest => renderCArg a ++ [','] ++ argsJoin rest

/-- The end-to-end scenario of the spec: include `stdio.h`, call
`printf` with one text argument, set exit code 1. -/
def helloWorldProgram : Code :=
  ((Code.new.addInclude (chars "stdio.h")).callFuncWithArgs (chars "printf")
    [CArg.String (chars "Hello World!")]).exit 1

/-! ## Basic properties of the `str::replace` model -/

theorem replaceAux_congr (p : Char) (ps rep : List Char) :
    ∀ (f₁ f₂ : Nat) (s : List Char), s.length ≤ f₁ → s.length ≤ f₂ →
      replaceAux p ps rep f₁ s = replaceAux p ps rep f₂ s := by
  intro f₁
  induction f₁ with
  | zero =>
    intro f₂ s hs₁ _
    have : s = [] := List.eq_nil_of_length_eq_zero (Nat.le_zero.mp hs₁)
    subst this
    cases f₂ <;> rfl
  | succ g ih =>
    intro f₂ s hs₁ hs₂
    cases s with
    | nil => cases f₂ <;> rfl
    | cons c rest =>
      cases f₂ with
      | zero => simp at hs₂
      | succ h =>
        simp only [replaceAux]
        simp only [List.length_cons] at hs₁ hs₂
        cases hpre : startsWith (p :: ps) (c :: rest)
        · rw [if_neg (by simp), if_neg (by simp)]
          exact congrArg _ (ih _ _ (by omega) (by omega))
        · rw [if_pos rfl, if_pos rfl]
          congr 1
          exact ih _ _ (by simp [List.length_drop]; omega)
            (by simp [List.length_drop]; omega)

theorem replaceList_cons_pos (p : Char) (ps rep : List Char) (c : Char)
    (rest : List Char) (h : startsWith (p :: ps) (c :: rest) = true) :
    replaceList p ps rep (c :: rest) =
      rep ++ replaceList p ps rep (rest.drop ps.length) := by
  unfold replaceList
  show replaceAux p ps rep (rest.length + 1) (c :: rest) = _
  simp only [replaceAux, h, if_true]
  congr 1
  exact replaceAux_congr p ps rep _ _ _ (by simp [List.length_drop]) (Nat.le_refl _)

theorem replaceList_cons_neg (p : Char) (ps rep : List Char) (c : Char)
    (rest : List Char) (h : startsWith (p :: ps) (c :: rest) = false) :
    replaceList p ps rep (c :: rest) = c :: replaceList p ps rep rest := by
  unfold replaceList
  show replaceAux p ps rep (rest.length + 1) (c :: rest) = _
  simp only [replaceAux, h, if_false, Bool.false_eq_true]

theorem replaceList_cons_ne (p : Char) (ps rep : List Char) (c : Char)
    (rest : List Char) (h : c ≠ p) :
    replaceList p ps rep (c :: rest) = c :: replaceList p ps rep rest := by
  apply replaceList_cons_neg
  simp [startsWith]
  intro hpc
  exact absurd hpc.symm h

theorem replaceList_single (a : Char) (rep s : List Char) :
    replaceList a [] rep s = charSubst a rep s := by
  induction s with
  | nil => rfl
  | cons c rest ih =>
    by_cases h : c = a
    · subst h
      rw [replaceList_cons_pos _ _ _ _ _ (by simp [startsWith])]
      simp [charSubst, ih]
    · rw [replaceList_cons_ne _ _ _ _ _ h]
      simp [charSubst, h, ih]

theorem charSubst_cons_of_ne (a : Char) (rep : List Char) (c : Char)
    (t : List Char) (h : c ≠ a) :
    charSubst a rep (c :: t) = c :: charSubst a rep t := by
  simp [charSubst, h]

/-! ## Single-pass characterizations of the escaping chain -/

theorem replaceCRLF_eq_crlfPass (s : List Char) :
    replaceList '\r' ['\n'] ['\\', 'r', '\\', 'n'] s = crlfPass s := by
  induction s using crlfPass.induct with
  | case1 t ih =>
    rw [replaceList_cons_pos _ _ _ _ _ (by simp [startsWith])]
    rw [crlfPass]
    simpa using ih
  | case2 c t h ih =>
    have hsw : startsWith ['\r', '\n'] (c :: t) = false := by
      by_cases hc : c = '\r'
      · subst hc
        cases t with
        | nil => rfl
        | cons d t' =>
          have hd : d ≠ '\n' := fun hd => h t' rfl (by rw [hd])
          show (('\r' == '\r') && (('\n' == d) && startsWith [] t')) = false
          have hbeq : ('\n' == d) = false := by
            simp only [beq_eq_false_iff_ne, ne_eq]
            exact fun hh => hd hh.symm
          simp [hbeq]
      · show (('\r' == c) && startsWith ['\n'] t) = false
        have hbeq : ('\r' == c) = false := by
          simp only [beq_eq_false_iff_ne, ne_eq]
          exact fun hh => hc hh.symm
        simp [hbeq]
    rw [replaceList_cons_neg _ _ _ _ _ hsw, crlfPass.eq_2 c t h, ih]
  | case3 => rfl

theorem escapeString_eq_escapeSpec (s : List Char) :
    escapeString s = escapeSpec s := by
  unfold escapeString
  rw [replaceCRLF_eq_crlfPass, replaceList_single, replaceList_single,
    replaceList_single]
  induction s using escapeSpec.induct with
  | case1 t ih =>
    rw [crlfPass, escapeSpec]
    simp only [charSubst, if_neg (by decide : ¬ ('\\' : Char) = '\n'),
      if_neg (by decide : ¬ ('r' : Char) = '\n'),
      if_neg (by decide : ¬ ('n' : Char) = '\n'),
      if_neg (by decide : ¬ ('\\' : Char) = '\t'),
      if_neg (by decide : ¬ ('r' : Char) = '\t'),
      if_neg (by decide : ¬ ('n' : Char) = '\t'),
      if_neg (by decide : ¬ ('\\' : Char) = '"'),
      if_neg (by decide : ¬ ('r' : Char) = '"'),
      if_neg (by decide : ¬ ('n' : Char) = '"')]
    simpa using ih
  | case2 t ih =>
    rw [crlfPass.eq_2 _ _ (by intro t' hn; exact absurd hn (by decide)),
      escapeSpec]
    simp only [charSubst, if_pos rfl,
      if_neg (by decide : ¬ ('\\' : Char) = '\t'),
      if_neg (by decide : ¬ ('n' : Char) = '\t'),
      if_neg (by decide : ¬ ('\\' : Char) = '"'),
      if_neg (by decide : ¬ ('n' : Char) = '"')]
    simpa using ih
  | case3 t ih =>
    rw [crlfPass.eq_2 _ _ (by intro t' hn; exact absurd hn (by decide)),
      escapeSpec]
    simp only [charSubst, if_pos rfl,
      if_neg (by decide : ¬ ('\t' : Char) = '\n'),
      if_neg (by decide : ¬ ('\\' : Char) = '"'),
      if_neg (by decide : ¬ ('t' : Char) = '"')]
    simpa using ih
  | case4 t ih =>
    rw [crlfPass.eq_2 _ _ (by intro t' hn; exact absurd hn (by decide)),
      escapeSpec]
    simp only [charSubst, if_pos rfl,
      if_neg (by decide : ¬ ('"' : Char) = '\n'),
      if_neg (by decide : ¬ ('"' : Char) = '\t'),
      if_neg (by decide : ¬ ('\\' : Char) = '\t')]
    simpa using ih
  | case5 c t h1 h2 h3 h4 ih =>
    rw [crlfPass.eq_2 _ _ (by intro t' hc ht; exact h1 t' hc ht),
      escapeSpec.eq_5 c t h1 h2 h3 h4]
    have hc2 : ¬ c = '\n' := fun h => h2 h
    have hc3 : ¬ c = '\t' := fun h => h3 h
    have hc4 : ¬ c = '"' := fun h => h4 h
    simp only [charSubst, if_neg hc2, if_neg hc3, if_neg hc4]
    simpa using ih
  | case6 => rfl

/-! ## The inverse substitutions and the escaping round trip -/

theorem unescape_step1 (s : List Char) (h : '\\' ∉ s) :
    replaceList '\\' ['r', '\\', 'n'] ['\r', '\n'] (escapeSpec s) = mid1 s := by
  induction s using escapeSpec.induct with
  | case1 t ih =>
    have ht : '\\' ∉ t :=
      fun hm => h (List.mem_cons_of_mem _ (List.mem_cons_of_mem _ hm))
    rw [escapeSpec, replaceList_cons_pos _ _ _ _ _ (by rfl), mid1]
    simp [ih ht]
  | case2 t ih =>
    have ht : '\\' ∉ t := fun hm => h (List.mem_cons_of_mem _ hm)
    rw [escapeSpec, replaceList_cons_neg _ _ _ _ _ (by rfl),
      replaceList_cons_ne _ _ _ _ _ (by decide), ih ht, mid1]
  | case3 t ih =>
    have ht : '\\' ∉ t := fun hm => h (List.mem_cons_of_mem _ hm)
    rw [escapeSpec, replaceList_cons_neg _ _ _ _ _ (by rfl),
      replaceList_cons_ne _ _ _ _ _ (by decide), ih ht, mid1]
  | case4 t ih =>
    have ht : '\\' ∉ t := fun hm => h (List.mem_cons_of_mem _ hm)
    rw [escapeSpec, replaceList_cons_neg _ _ _ _ _ (by rfl),
      replaceList_cons_ne _ _ _ _ _ (by decide), ih ht, mid1]
  | case5 c t h1 h2 h3 h4 ih =>
    have hc : c ≠ '\\' := by
      intro hc
      subst hc
      exact h (List.mem_cons_self _ _)
    have ht : '\\' ∉ t := fun hm => h (List.mem_cons_of_mem _ hm)
    rw [escapeSpec.eq_5 c t h1 h2 h3 h4,
      replaceList_cons_ne _ _ _ _ _ hc, ih ht, mid1.eq_5 c t h1 h2 h3 h4]
  | case6 => rfl

theorem unescape_step2 (s : List Char) (h : '\\' ∉ s) :
    replaceList '\\' ['n'] ['\n'] (mid1 s) = mid2 s := by
  induction s using mid1.induct with
  | case1 t ih =>
    have ht : '\\' ∉ t :=
      fun hm => h (List.mem_cons_of_mem _ (List.mem_cons_of_mem _ hm))
    rw [mid1, replaceList_cons_ne _ _ _ _ _ (by decide),
      replaceList_cons_ne _ _ _ _ _ (by decide), ih ht]
    simp [mid2]
  | case2 t ih =>
    have ht : '\\' ∉ t := fun hm => h (List.mem_cons_of_mem _ hm)
    rw [mid1, replaceList_cons_pos _ _ _ _ _ (by rfl)]
    simp only [List.length_cons, List.length_nil, List.drop_succ_cons,
      List.drop_zero]
    rw [ih ht]
    simp [mid2]
  | case3 t ih =>
    have ht : '\\' ∉ t := fun hm => h (List.mem_cons_of_mem _ hm)
    rw [mid1, replaceList_cons_neg _ _ _ _ _ (by rfl),
      replaceList_cons_ne _ _ _ _ _ (by decide), ih ht, mid2]
  | case4 t ih =>
    have ht : '\\' ∉ t := fun hm => h (List.mem_cons_of_mem _ hm)
    rw [mid1, replaceList_cons_neg _ _ _ _ _ (by rfl),
      replaceList_cons_ne _ _ _ _ _ (by decide), ih ht, mid2]
  | case5 c t h1 h2 h3 h4 ih =>
    have hc : c ≠ '\\' := by
      intro hc
      subst hc
      exact h (List.mem_cons_self _ _)
    have ht : '\\' ∉ t := fun hm => h (List.mem_cons_of_mem _ hm)
    rw [mid1.eq_5 c t h1 h2 h3 h4, replaceList_cons_ne _ _ _ _ _ hc, ih ht,
      mid2.eq_3 c t h3 h4]
  | case6 => rfl

theorem unescape_step3 (s : List Char) (h : '\\' ∉ s) :
    replaceList '\\' ['t'] ['\t'] (mid2 s) = mid3 s := by
  induction s using mid2.induct with
  | case1 t ih =>
    have ht : '\\' ∉ t := fun hm => h (List.mem_cons_of_mem _ hm)
    rw [mid2, replaceList_cons_pos _ _ _ _ _ (by rfl)]
    simp only [List.length_cons, List.length_nil, List.drop_succ_cons,
      List.drop_zero]
    rw [ih ht]
    simp [mid3]
  | case2 t ih =>
    have ht : '\\' ∉ t := fun hm => h (List.mem_cons_of_mem _ hm)
    rw [mid2, replaceList_cons_neg _ _ _ _ _ (by rfl),
      replaceList_cons_ne _ _ _ _ _ (by decide), ih ht, mid3]
  | case3 c t h1 h2 ih =>
    have hc : c ≠ '\\' := by
      intro hc
      subst hc
      exact h (List.mem_cons_self _ _)
    have ht : '\\' ∉ t := fun hm => h (List.mem_cons_of_mem _ hm)
    rw [mid2.eq_3 c t h1 h2, replaceList_cons_ne _ _ _ _ _ hc, ih ht,
      mid3.eq_2 c t h2]
  | case4 => rfl

theorem unescape_step4 (s : List Char) (h : '\\' ∉ s) :
    replaceList '\\' ['"'] ['"'] (mid3 s) = s := by
  induction s using mid3.induct with
  | case1 t ih =>
    have ht : '\\' ∉ t := fun hm => h (List.mem_cons_of_mem _ hm)
    rw [mid3, replaceList_cons_pos _ _ _ _ _ (by rfl)]
    simp only [List.length_cons, List.length_nil, List.drop_succ_cons,
      List.drop_zero]
    rw [ih ht]
    rfl
  | case2 c t h1 ih =>
    have hc : c ≠ '\\' := by
      intro hc
      subst hc
      exact h (List.mem_cons_self _ _)
    have ht : '\\' ∉ t := fun hm => h (List.mem_cons_of_mem _ hm)
    rw [mid3.eq_2 c t h1, replaceList_cons_ne _ _ _ _ _ hc, ih ht]
  | case3 => rfl

theorem unescape_escapeString (s : List Char) (h : '\\' ∉ s) :
    unescapeString (escapeString s) = s := by
  rw [escapeString_eq_escapeSpec]
  unfold unescapeString
  rw [unescape_step1 s h, unescape_step2 s h, unescape_step3 s h,
    unescape_step4 s h]

/-! ## Structure of the statement-appending operations -/

theorem foldl_push_eq (args : List CArg) :
    ∀ init : List Char,
      args.foldl (fun acc a => acc ++ renderCArg a ++ [',']) init =
        init ++ argsJoin args := by
  induction args with
  | nil =>
    intro init
    simp [argsJoin]
  | cons a rest ih =>
    intro init
    simp only [List.foldl_cons, argsJoin]
    rw [ih]
    simp [List.append_assoc]

theorem argsJoin_getLast? (args : List CArg) (h : args ≠ []) :
    (argsJoin args).getLast? = some ',' := by
  induction args with
  | nil => exact absurd rfl h
  | cons a rest ih =>
    rw [argsJoin]
    cases rest with
    | nil =>
      rw [show argsJoin [] = [] from rfl, List.append_nil]
      exact List.getLast?_concat _
    | cons b rest' =>
      rw [List.getLast?_append, ih (by simp)]
      rfl

theorem argsJoin_ne_nil (args : List CArg) (h : args ≠ []) :
    argsJoin args ≠ [] := by
  cases args with
  | nil => exact absurd rfl h
  | cons a rest => simp [argsJoin]

/-- Closed form of `call_func_with_args`: the trailing-comma strip
only ever removes the final comma of the joined argument text (or
nothing at all when there are no arguments). -/
theorem callFuncWithArgs_code (c : Code) (f : List Char) (args : List CArg) :
    c.callFuncWithArgs f args =
      { c with code :=
          c.code ++ f ++ ['('] ++ (argsJoin args).dropLast ++ chars ");\n" } := by
  unfold Code.callFuncWithArgs
  rw [foldl_push_eq]
  cases args with
  | nil =>
    rw [show argsJoin [] = [] from rfl, List.append_nil]
    have hlast : (c.code ++ f ++ ['(']).getLast? = some '(' := by
      simp [List.getLast?_append]
    rw [stripTrailingComma, hlast]
    rw [show ((some ('(' : Char) == some ',') : Bool) = false from rfl]
    simp
  | cons a rest =>
    have hne : argsJoin (a :: rest) ≠ [] := argsJoin_ne_nil _ (by simp)
    have hlast : (argsJoin (a :: rest)).getLast? = some ',' :=
      argsJoin_getLast? _ (by simp)
    have hl2 : ((c.code ++ f ++ ['(']) ++ argsJoin (a :: rest)).getLast? =
        some ',' := by
      rw [List.getLast?_append, hlast]
      rfl
    rw [stripTrailingComma, hl2]
    rw [if_pos (show ((some (',' : Char) == some ',') : Bool) = true from rfl)]
    rw [List.dropLast_append_of_ne_nil _ hne]

theorem getLast?_append_newline (x y : List Char) (h : y.getLast? = some '\n') :
    (x ++ y).getLast? = some '\n' := by
  rw [List.getLast?_append, h]
  rfl

theorem append_ne_nil_right (x y : List Char) (h : y ≠ []) : x ++ y ≠ [] := by
  intro hh
  rw [List.append_eq_nil] at hh
  exact h hh.2

/-- Every `new_var` branch appends one newline-terminated fragment to
the body. -/
theorem newVar_code_append (co : Code) (n : List Char) (v : VarInit) :
    ∃ frag : List Char, frag ≠ [] ∧ frag.getLast? = some '\n' ∧
      (co.newVar n v).code = co.code ++ frag := by
  cases v with
  | String s =>
    refine ⟨chars "char " ++ n ++ chars "[]=\"" ++ s ++ chars "\";" ++ ['\n'],
      append_ne_nil_right _ _ (by decide),
      getLast?_append_newline _ _ rfl, ?_⟩
    simp [Code.newVar, List.append_assoc]
  | Ident ty id =>
    cases ty with
    | String =>
      refine ⟨chars "char " ++ n ++ chars "[]" ++ ['='] ++ id ++ [';'] ++ ['\n'],
        append_ne_nil_right _ _ (by decide),
        getLast?_append_newline _ _ rfl, ?_⟩
      simp [Code.newVar, List.append_assoc]
    | Int32 =>
      refine ⟨chars "int " ++ n ++ ['='] ++ id ++ [';'] ++ ['\n'],
        append_ne_nil_right _ _ (by decide),
        getLast?_append_newline _ _ rfl, ?_⟩
      simp [Code.newVar, List.append_assoc]
    | Int64 =>
      refine ⟨chars "int " ++ n ++ ['='] ++ id ++ [';'] ++ ['\n'],
        append_ne_nil_right _ _ (by decide),
        getLast?_append_newline _ _ rfl, ?_⟩
      simp [Code.newVar, List.append_assoc]
    | Float =>
      refine ⟨chars "float " ++ n ++ ['='] ++ id ++ [';'] ++ ['\n'],
        append_ne_nil_right _ _ (by decide),
        getLast?_append_newline _ _ rfl, ?_⟩
      simp [Code.newVar, List.append_assoc]
    | Double =>
      refine ⟨chars "double " ++ n ++ ['='] ++ id ++ [';'] ++ ['\n'],
        append_ne_nil_right _ _ (by decide),
        getLast?_append_newline _ _ rfl, ?_⟩
      simp [Code.newVar, List.append_assoc]
    | Bool =>
      refine ⟨chars "bool " ++ n ++ ['='] ++ id ++ [';'] ++ ['\n'],
        append_ne_nil_right _ _ (by decide),
        getLast?_append_newline _ _ rfl, ?_⟩
      simp [Code.newVar, List.append_assoc]
    | Char =>
      refine ⟨chars "char " ++ n ++ ['='] ++ id ++ [';'] ++ ['\n'],
        append_ne_nil_right _ _ (by decide),
        getLast?_append_newline _ _ rfl, ?_⟩
      simp [Code.newVar, List.append_assoc]
  | Int32 i =>
    refine ⟨chars "int " ++ n ++ ['='] ++ intToString i ++ chars ";\n",
      append_ne_nil_right _ _ (by decide),
      getLast?_append_newline _ _ rfl, ?_⟩
    simp [Code.newVar, List.append_assoc]
  | Int64 i =>
    refine ⟨chars "int " ++ n ++ ['='] ++ intToString i ++ chars ";\n",
      append_ne_nil_right _ _ (by decide),
      getLast?_append_newline _ _ rfl, ?_⟩
    simp [Code.newVar, List.append_assoc]
  | Float r =>
    refine ⟨chars "float " ++ n ++ ['='] ++ r ++ chars ";\n",
      append_ne_nil_right _ _ (by decide),
      getLast?_append_newline _ _ rfl, ?_⟩
    simp [Code.newVar, List.append_assoc]
  | Double r =>
    refine ⟨chars "double " ++ n ++ ['='] ++ r ++ chars ";\n",
      append_ne_nil_right _ _ (by decide),
      getLast?_append_newline _ _ rfl, ?_⟩
    simp [Code.newVar, List.append_assoc]
  | Bool b =>
    refine ⟨chars "bool " ++ n ++ ['='] ++ boolToString b ++ chars ";\n",
      append_ne_nil_right _ _ (by decide),
      getLast?_append_newline _ _ rfl, ?_⟩
    simp [Code.newVar, List.append_assoc]
  | Char ch =>
    refine ⟨chars "char " ++ n ++ ['=', '\x27'] ++ [ch] ++ ['\x27'] ++ chars ";\n",
      append_ne_nil_right _ _ (by decide),
      getLast?_append_newline _ _ rfl, ?_⟩
    simp [Code.newVar, List.append_assoc]
  | SizeString sz =>
    refine ⟨chars "char " ++ n ++ ['['] ++ natToString sz ++ chars "];\n",
      append_ne_nil_right _ _ (by decide),
      getLast?_append_newline _ _ rfl, ?_⟩
    simp [Code.newVar, List.append_assoc]

/-! ## The claims -/

/-- Claim C1 counterexample: the inclusion list can contain duplicate
names.  Declaring two boolean variables pushes `"stdbool.h"` twice
(the `VarInit::Bool` arm pushes without the membership check that
`Code::include` performs), so the claimed no-duplicates invariant and
the claimed exactly-once boolean inclusion both fail. -/
theorem C1_counterexample :
    ((Code.new.newVar (chars "b") (VarInit.Bool true)).newVar (chars "c")
        (VarInit.Bool true)).requires =
      [chars "stdbool.h", chars "stdbool.h"] ∧
    ¬ ((Code.new.newVar (chars "b") (VarInit.Bool true)).newVar (chars "c")
        (VarInit.Bool true)).requires.Nodup := by
  decide

/-- Claim C1 (amended): the explicit include operation preserves the
no-duplicates invariant, but a boolean declaration appends the
boolean-support inclusion unconditionally; consequently it is added
exactly once only when starting from a state that does not already
contain it, and repeated boolean declarations (or combining one with
an explicit include of the same name) produce duplicates. -/
theorem C1_amended :
    (∀ (c : Code) (f : List Char), c.requires.Nodup →
      (c.addInclude f).requires.Nodup) ∧
    (∀ (c : Code) (n : List Char) (b : Bool),
      (c.newVar n (VarInit.Bool b)).requires =
        c.requires ++ [chars "stdbool.h"]) ∧
    (∀ (c : Code) (n id : List Char),
      (c.newVar n (VarInit.Ident VarTypes.Bool id)).requires =
        c.requires ++ [chars "stdbool.h"]) ∧
    (∀ (c : Code) (n : List Char) (b : Bool), chars "stdbool.h" ∉ c.requires →
      ((c.newVar n (VarInit.Bool b)).requires.count (chars "stdbool.h")) = 1) ∧
    (∀ (c : Code) (n id : List Char), chars "stdbool.h" ∉ c.requires →
      ((c.newVar n (VarInit.Ident VarTypes.Bool id)).requires.count
        (chars "stdbool.h")) = 1) := by
  refine ⟨?_, ?_, ?_, ?_, ?_⟩
  · intro c f h
    unfold Code.addInclude
    by_cases hf : f ∈ c.requires
    · simp [hf, h]
    · simp [hf, List.nodup_append, h]
  · intro c n b
    simp [Code.newVar]
  · intro c n id
    simp [Code.newVar]
  · intro c n b h
    simp [Code.newVar, List.count_append, List.count_eq_zero.mpr h]
  · intro c n id h
    simp [Code.newVar, List.count_append, List.count_eq_zero.mpr h]

theorem C1_amended_witness :
    Code.new.requires.Nodup ∧
    (Code.new.addInclude (chars "stdio.h")).requires.Nodup ∧
    (Code.new.newVar (chars "b") (VarInit.Bool true)).requires =
      Code.new.requires ++ [chars "stdbool.h"] ∧
    (Code.new.newVar (chars "t") (VarInit.Ident VarTypes.Bool
      (chars "b"))).requires = Code.new.requires ++ [chars "stdbool.h"] ∧
    chars "stdbool.h" ∉ Code.new.requires ∧
    (Code.new.newVar (chars "b") (VarInit.Bool true)).requires.count
      (chars "stdbool.h") = 1 ∧
    (Code.new.newVar (chars "t") (VarInit.Ident VarTypes.Bool
      (chars "b"))).requires.count (chars "stdbool.h") = 1 :=
  ⟨by decide,
   C1_amended.1 Code.new (chars "stdio.h") (by decide),
   C1_amended.2.1 Code.new (chars "b") true,
   C1_amended.2.2.1 Code.new (chars "t") (chars "b"),
   by decide,
   C1_amended.2.2.2.1 Code.new (chars "b") true (by decide),
   C1_amended.2.2.2.2 Code.new (chars "t") (chars "b") (by decide)⟩

/-- Claim C2 counterexample: `new_var` with a text-literal initializer
does not escape the payload — a newline in the initializer is copied
into the output verbatim, not rendered as the two-character escape the
call-argument rule would produce. -/
theorem C2_counterexample :
    (Code.new.newVar (chars "x") (VarInit.String ['\n'])).code ≠
      chars "char x[]=\"" ++ escapeString ['\n'] ++ chars "\";\n" ∧
    (Code.new.newVar (chars "x") (VarInit.String ['\n'])).code =
      chars "char x[]=\"" ++ ['\n'] ++ chars "\";\n" := by
  decide

/-- Claim C2 (amended): `new_var` with a text-literal initializer
renders the initializer text verbatim between double quotes, with no
escaping applied (unlike the call-argument rendering rule). -/
theorem C2_amended (c : Code) (n s : List Char) :
    (c.newVar n (VarInit.String s)).code =
      c.code ++ chars "char " ++ n ++ chars "[]=\"" ++ s ++
        chars "\";" ++ ['\n'] :=
  rfl

/-- Claim C3 counterexample: a character call argument is pushed bare,
with no single quotes around it. -/
theorem C3_counterexample :
    (Code.new.callFuncWithArgs (chars "f") [CArg.Char 'a']).code =
      chars "f(a);\n" ∧
    (Code.new.callFuncWithArgs (chars "f") [CArg.Char 'a']).code ≠
      chars "f(" ++ ['\x27', 'a', '\x27'] ++ chars ");\n" := by
  decide

/-- Claim C3 (amended): a character renders between single quotes only
as a variable initializer; as a call argument it is emitted verbatim
with no quotes. -/
theorem C3_amended (co : Code) (n f : List Char) (ch : Char) :
    (co.newVar n (VarInit.Char ch)).code =
      co.code ++ chars "char " ++ n ++ ['=', '\x27', ch, '\x27'] ++ chars ";\n" ∧
    (co.callFuncWithArgs f [CArg.Char ch]).code =
      co.code ++ f ++ ['(', ch] ++ chars ");\n" := by
  constructor
  · simp [Code.newVar, List.append_assoc]
  · rw [callFuncWithArgs_code]
    simp [argsJoin, renderCArg, List.append_assoc]

/-- Claim C4: the end-to-end scenario renders to exactly the expected
bytes, and the text ends with exactly one trailing line break (the
last character is a newline, the one before it is the closing brace). -/
theorem C4_end_to_end :
    helloWorldProgram.render =
      chars "#include<stdio.h>\nint main() \x7b\nprintf(\"Hello World!\");\nreturn 1;\n\x7d\n" ∧
    helloWorldProgram.render.getLast? = some '\n' ∧
    helloWorldProgram.render.dropLast.getLast? = some '\x7d' := by
  decide

/-- Claim C5: a text-literal call argument renders as the payload
transformed by the four substitutions in their fixed order (that is
`escapeString`, literally the source's four replaces), wrapped in
double quotes; and that transformation equals the single-pass
`escapeSpec`, which rewrites carriage-return+newline pairs first, then
lone newlines, tabs and quotes, and leaves every other character
unaltered. -/
theorem C5_text_argument_escaping (co : Code) (f s : List Char) :
    (co.callFuncWithArgs f [CArg.String s]).code =
      co.code ++ f ++ ['(', '"'] ++ escapeString s ++ ['"'] ++ chars ");\n" ∧
    escapeString s = escapeSpec s := by
  refine ⟨?_, escapeString_eq_escapeSpec s⟩
  rw [callFuncWithArgs_code,
    show argsJoin [CArg.String s] =
      (('"' :: (escapeString s ++ ['"'])) ++ [',']) ++ [] from rfl,
    List.append_nil, List.dropLast_concat]
  simp [List.append_assoc]

/-- Claim C6 counterexample: the escaping is not injective and not
undone by the inverse substitutions, because backslashes of the input
are not themselves escaped: the two-character string backslash-n
escapes to itself, collides with the escape of a newline, and
un-escapes to a newline. -/
theorem C6_counterexample :
    escapeString ['\\', 'n'] = escapeString ['\n'] ∧
    (['\\', 'n'] : List Char) ≠ ['\n'] ∧
    unescapeString (escapeString ['\\', 'n']) ≠ ['\\', 'n'] := by
  decide

/-- Claim C6 (amended): for every input string containing no backslash
character, the inverse substitutions applied to the escaped text
reproduce the input exactly, and the escaping is injective on such
strings. -/
theorem C6_escape_roundtrip (s : List Char) (hs : '\\' ∉ s) :
    unescapeString (escapeString s) = s ∧
    ∀ t : List Char, '\\' ∉ t → escapeString s = escapeString t → s = t := by
  refine ⟨unescape_escapeString s hs, ?_⟩
  intro t ht he
  have h1 := unescape_escapeString s hs
  have h2 := unescape_escapeString t ht
  rw [← h1, ← h2, he]

theorem C6_escape_roundtrip_witness :
    '\\' ∉ (['a', '\r', '\n', '\t', '"', 'n'] : List Char) ∧
    unescapeString (escapeString ['a', '\r', '\n', '\t', '"', 'n']) =
      ['a', '\r', '\n', '\t', '"', 'n'] :=
  ⟨by decide,
   (C6_escape_roundtrip ['a', '\r', '\n', '\t', '"', 'n'] (by decide)).1⟩

/-- Claim C7: calling `call_func_with_args` with an empty argument
list leaves the program in exactly the same state as `call_func`:
the trailing-comma strip does not fire (the buffer ends with the
opening parenthesis) and both append `name();` plus a line break. -/
theorem C7_zero_args_degenerates (co : Code) (f : List Char) :
    co.callFuncWithArgs f [] = co.callFunc f := by
  rw [callFuncWithArgs_code]
  unfold Code.callFunc
  rw [show chars "();\n" = '(' :: chars ");\n" from rfl]
  simp [List.append_assoc, show argsJoin [] = [] from rfl]

/-- Claim C8: every statement operation appends exactly one
newline-terminated fragment to the body, leaving the pre-existing
body prefix unchanged (in particular the trailing-comma strip of
`call_func_with_args` only ever removes the comma the loop itself just
pushed). -/
theorem C8_body_append_only (co : Code) (f n : List Char) (args : List CArg)
    (v : VarInit) :
    (∃ frag : List Char, frag ≠ [] ∧ frag.getLast? = some '\n' ∧
      (co.callFunc f).code = co.code ++ frag) ∧
    (∃ frag : List Char, frag ≠ [] ∧ frag.getLast? = some '\n' ∧
      (co.callFuncWithArgs f args).code = co.code ++ frag) ∧
    (∃ frag : List Char, frag ≠ [] ∧ frag.getLast? = some '\n' ∧
      (co.newVar n v).code = co.code ++ frag) := by
  refine ⟨⟨f ++ chars "();\n", append_ne_nil_right _ _ (by decide),
      getLast?_append_newline _ _ rfl,
      by unfold Code.callFunc; simp [List.append_assoc]⟩,
    ⟨f ++ ['('] ++ (argsJoin args).dropLast ++ chars ");\n",
      append_ne_nil_right _ _ (by decide),
      getLast?_append_newline _ _ rfl, ?_⟩,
    newVar_code_append co n v⟩
  rw [callFuncWithArgs_code]
  simp [List.append_assoc]

/-- Claim C9: a 64-bit integer initializer declares with the keyword
`int` — byte-identical to the 32-bit variant — followed by the name,
`=`, the decimal value and `;`; the 64-bit typed-identifier reference
also renders the keyword `int`. -/
theorem C9_int64_renders_int (co : Code) (n id : List Char) (v : Int) :
    (co.newVar n (VarInit.Int64 v)).code =
      co.code ++ chars "int " ++ n ++ ['='] ++ intToString v ++ chars ";\n" ∧
    (co.newVar n (VarInit.Int64 v)).code =
      (co.newVar n (VarInit.Int32 v)).code ∧
    (co.newVar n (VarInit.Ident VarTypes.Int64 id)).code =
      co.code ++ chars "int " ++ n ++ ['='] ++ id ++ chars ";\n" := by
  refine ⟨rfl, rfl, ?_⟩
  simp [Code.newVar, List.append_assoc,
    show chars ";\n" = [';'] ++ ['\n'] from rfl]

/-- Claim C10: frame effects — `exit` changes only the exit-code
field, `include` changes only the inclusion list, and the two call
operations change only the body. -/
theorem C10_frame_effects (co : Code) (v : Int) (f g : List Char)
    (args : List CArg) :
    ((co.exit v).code = co.code ∧ (co.exit v).requires = co.requires) ∧
    ((co.addInclude f).code = co.code ∧
      (co.addInclude f).exitCode = co.exitCode) ∧
    ((co.callFunc g).requires = co.requires ∧
      (co.callFunc g).exitCode = co.exitCode) ∧
    ((co.callFuncWithArgs g args).requires = co.requires ∧
      (co.callFuncWithArgs g args).exitCode = co.exitCode) := by
  refine ⟨⟨rfl, rfl⟩, ⟨?_, ?_⟩, ⟨rfl, rfl⟩, ⟨rfl, rfl⟩⟩
  · unfold Code.addInclude
    split <;> rfl
  · unfold Code.addInclude
    split <;> rfl

end CEmit
